import Mathlib

/-!
Verification of the block-iterable range layer of parlaylib
(include/parlay/internal/delayed/common.h).

Modelling conventions:
* A random-access range is a Lean `List`; a C++ iterator into it is its
  offset from the begin iterator, so the end iterator is the length.
* `size_t` arithmetic wraps modulo `2 ^ 64`; the reduction is written
  explicitly where the code multiplies block indices.
* A non-random-access block-iterable range is a structure reporting its
  size, its block count, and the element list of each block.
* The output buffer of a materialization is a function from slot index to
  `Option`; `none` is an uninitialized slot.
-/

namespace Parlay

/-- The number of values of the C++ type `size_t`; unsigned arithmetic wraps
modulo this constant. -/
def wordSize : Nat := 2 ^ 64

/-- C++ ranges of objects hold at most `PTRDIFF_MAX` elements, so that
iterator subtraction is defined; hence the size of a random-access range is
below `2 ^ 63`. -/
def maxRangeSize : Nat := 2 ^ 63

/-- The constant `static constexpr size_t block_size = 2000;` -/
def block_size : Nat := 2000

/-- The function `num_blocks_from_size(n)` from common.h:
`(n == 0) ? 0 : (1 + (n - 1) / block_size)`. -/
def num_blocks_from_size (n : Nat) : Nat :=
  if n = 0 then 0 else 1 + (n - 1) / block_size

/-- The overload of `num_blocks(r)` for a random-access range:
`num_blocks_from_size(size(r))`. -/
def num_blocks (r : List α) : Nat :=
  num_blocks_from_size r.length

/-- The overload of `begin_block(r, i)` for a random-access range, as the offset of the
returned iterator from the begin iterator: `min(i * block_size, n)`, the
product computed in `size_t`. -/
def begin_block (r : List α) (i : Nat) : Nat :=
  min ((i * block_size) % wordSize) r.length

/-- The overload of `end_block(r, i)` for a random-access range, as the offset of the
returned iterator from the begin iterator: `min((i + 1) * block_size, n)`,
the arithmetic computed in `size_t`. -/
def end_block (r : List α) (i : Nat) : Nat :=
  min (((i + 1) * block_size) % wordSize) r.length

/-- The elements of block `i` of a random-access range: the iterator range
from `begin_block(r, i)` to `end_block(r, i)`. -/
def block_elems (r : List α) (i : Nat) : List α :=
  (r.drop (begin_block r i)).take (end_block r i - begin_block r i)

-- Arithmetic helper lemmas about the block count.

theorem le_num_blocks_mul (n : Nat) : n ≤ num_blocks_from_size n * block_size := by
  simp only [num_blocks_from_size, block_size]
  split <;> omega

theorem num_blocks_mul_le (n : Nat) :
    num_blocks_from_size n * block_size ≤ n + (block_size - 1) := by
  simp only [num_blocks_from_size, block_size]
  split <;> omega

/-- C3. `num_blocks` of a random-access range is `0` exactly for the empty
range, and otherwise is the ceiling of `n / block_size`. -/
theorem num_blocks_eq_ceil (r : List α) :
    (num_blocks r = 0 ↔ r.length = 0) ∧
      (r.length ≠ 0 → num_blocks r = r.length ⌈/⌉ block_size) := by
  constructor
  · simp only [num_blocks, num_blocks_from_size, block_size]
    split <;> omega
  · intro h
    simp only [num_blocks, num_blocks_from_size, Nat.ceilDiv_eq_add_pred_div, block_size,
      if_neg h]
    omega

/-- Witness for `num_blocks_eq_ceil` at the concrete range `[1, 2, 3]`. -/
theorem num_blocks_eq_ceil_witness :
    (num_blocks ([1, 2, 3] : List Nat) = 0 ↔ ([1, 2, 3] : List Nat).length = 0) ∧
      num_blocks ([1, 2, 3] : List Nat) = ([1, 2, 3] : List Nat).length ⌈/⌉ block_size := by
  have h := num_blocks_eq_ceil ([1, 2, 3] : List Nat)
  exact ⟨h.1, h.2 (by decide)⟩

/-- C4. Adjacent blocks of a random-access range share their boundary
iterator, and block `num_blocks r` is the empty sentinel block beginning at
the end iterator of the range. -/
theorem end_block_eq_begin_block_succ (r : List α) (hn : r.length < maxRangeSize) :
    (∀ i, i < num_blocks r → end_block r i = begin_block r (i + 1)) ∧
      begin_block r (num_blocks r) = r.length := by
  refine ⟨fun i _ => rfl, ?_⟩
  have h1 := le_num_blocks_mul r.length
  have h2 := num_blocks_mul_le r.length
  simp only [begin_block, num_blocks, block_size] at *
  have hmod : num_blocks_from_size r.length * 2000 % wordSize
      = num_blocks_from_size r.length * 2000 := by
    apply Nat.mod_eq_of_lt
    simp only [wordSize, maxRangeSize] at *
    omega
  rw [hmod]
  omega

/-- Witness for `end_block_eq_begin_block_succ` at the concrete range `[10, 20, 30]`. -/
theorem end_block_eq_begin_block_succ_witness :
    begin_block ([10, 20, 30] : List Nat) (num_blocks ([10, 20, 30] : List Nat))
      = ([10, 20, 30] : List Nat).length := by
  exact (end_block_eq_begin_block_succ ([10, 20, 30] : List Nat)
    (by norm_num [maxRangeSize])).2

/-- C6. For every valid block index of a random-access range, `begin_block`
and `end_block` are the offsets `min(i * block_size, n)` and
`min((i + 1) * block_size, n)` from the start of the range. -/
theorem begin_end_block_offsets (r : List α) (hn : r.length < maxRangeSize)
    (i : Nat) (hi : i ≤ num_blocks r) :
    begin_block r i = min (i * block_size) r.length ∧
      end_block r i = min ((i + 1) * block_size) r.length := by
  have h2 := num_blocks_mul_le r.length
  have hib : (i + 1) * block_size < wordSize := by
    simp only [num_blocks, block_size, wordSize, maxRangeSize] at *
    omega
  constructor
  · simp only [begin_block]
    rw [Nat.mod_eq_of_lt (by simp only [block_size, wordSize] at *; omega)]
  · simp only [end_block]
    rw [Nat.mod_eq_of_lt hib]

/-- Witness for `begin_end_block_offsets` at the range `[10, 20, 30]` and
block index `1`. -/
theorem begin_end_block_offsets_witness :
    begin_block ([10, 20, 30] : List Nat) 1 = min (1 * block_size) 3 ∧
      end_block ([10, 20, 30] : List Nat) 1 = min ((1 + 1) * block_size) 3 := by
  exact begin_end_block_offsets ([10, 20, 30] : List Nat)
    (by norm_num [maxRangeSize]) 1 (by norm_num [num_blocks, num_blocks_from_size])

/-- C10 as stated is false: for the range of 4001 zeros and the block index
`i = 9223372036854775`, the product `i * block_size` still fits in a machine
word and `i` exceeds `num_blocks`, yet the `size_t` product
`(i + 1) * block_size` wraps around, so `end_block` is the offset `384`
rather than the end position `4001`. -/
theorem blocks_clamped_counterexample :
    num_blocks (List.replicate 4001 (0 : Nat)) ≤ 9223372036854775 ∧
      9223372036854775 * block_size < wordSize ∧
      end_block (List.replicate 4001 (0 : Nat)) 9223372036854775
        ≠ (List.replicate 4001 (0 : Nat)).length := by
  have hlen : (List.replicate 4001 (0 : Nat)).length = 4001 := List.length_replicate 4001 0
  refine ⟨?_, by decide, ?_⟩
  · simp only [num_blocks, hlen]
    decide
  · simp only [end_block, hlen]
    decide

/-- C10 amended: for every random-access range `r` and every block index `i`,
including every `i` strictly greater than `num_blocks r`, provided
`(i + 1) * block_size` does not exceed the maximum machine-word value, both
`begin_block r i` and `end_block r i` equal the end position of `r` whenever
`num_blocks r ≤ i`; and the min-clamping never yields a position outside the
range, for any index at all. -/
theorem blocks_clamped (r : List α) (i : Nat)
    (hi : (i + 1) * block_size < wordSize) (hge : num_blocks r ≤ i) :
    begin_block r i = r.length ∧ end_block r i = r.length ∧
      ∀ j : Nat, begin_block r j ≤ r.length ∧ end_block r j ≤ r.length := by
  have h1 := le_num_blocks_mul r.length
  simp only [num_blocks, begin_block, end_block, block_size, wordSize] at *
  refine ⟨?_, ?_, fun j => ⟨min_le_right _ _, min_le_right _ _⟩⟩
  · rw [Nat.mod_eq_of_lt (by omega)]
    omega
  · rw [Nat.mod_eq_of_lt (by omega)]
    omega

/-- Witness for `blocks_clamped` at the range `[1, 2]` and index `5`. -/
theorem blocks_clamped_witness :
    begin_block ([1, 2] : List Nat) 5 = ([1, 2] : List Nat).length := by
  exact (blocks_clamped ([1, 2] : List Nat) 5 (by decide) (by decide)).1

theorem flatMap_block_elems_take (r : List α) (hn : r.length < maxRangeSize)
    (k : Nat) : k ≤ num_blocks r →
    (List.range k).flatMap (block_elems r) = r.take (min (k * block_size) r.length) := by
  induction k with
  | zero => intro _; simp
  | succ k ih =>
    intro hk
    rw [List.range_succ, List.flatMap_append, ih (by omega)]
    simp only [List.flatMap_cons, List.flatMap_nil, List.append_nil]
    have hoff := begin_end_block_offsets r hn k (by omega)
    rw [block_elems, hoff.1, hoff.2]
    conv_rhs => rw [show min ((k + 1) * block_size) r.length
        = min (k * block_size) r.length
          + (min ((k + 1) * block_size) r.length - min (k * block_size) r.length) from by
            simp only [block_size]; omega]
    rw [List.take_add]

/-- C5. Concatenating the blocks of a random-access range in order, each
block enumerated from its begin iterator to its end iterator, reproduces the
range exactly: no element skipped, none duplicated. -/
theorem blocks_concat (r : List α) (hn : r.length < maxRangeSize) :
    (List.range (num_blocks r)).flatMap (block_elems r) = r := by
  rw [flatMap_block_elems_take r hn (num_blocks r) le_rfl]
  have h1 := le_num_blocks_mul r.length
  rw [show min (num_blocks r * block_size) r.length = r.length from by
    simp only [num_blocks] at *; omega]
  exact List.take_length r

/-- Witness for `blocks_concat` at the range `[4, 5, 6]`. -/
theorem blocks_concat_witness :
    (List.range (num_blocks ([4, 5, 6] : List Nat))).flatMap
        (block_elems ([4, 5, 6] : List Nat)) = [4, 5, 6] :=
  blocks_concat ([4, 5, 6] : List Nat) (by norm_num [maxRangeSize])

/-- The alias `view_storage_type` from common.h: the storage of the underlying view
inside `block_iterable_view_base_data`.  If the underlying view type is an
lvalue reference, the member is a `std::reference_wrapper` around the
caller-held range, modelled as the location of that range in the caller
environment; otherwise the member holds a value of its own. -/
inductive view_storage_type (α : Type) where
  | ref (loc : Nat)
  | value (v : List α)
deriving DecidableEq

/-- Construction of `block_iterable_view_base_data` from an underlying view
supplied at location `loc` of the caller environment `env`: an lvalue
reference argument is stored as a reference, any other argument is moved in
and stored by value. -/
def block_iterable_view_base_data (isLvalueRef : Bool) (loc : Nat)
    (env : Nat → List α) : view_storage_type α :=
  if isLvalueRef then view_storage_type.ref loc else view_storage_type.value (env loc)

/-- The `base_view` accessor, common to both storage modes: a stored
reference reads through the current caller environment, a stored value is
returned as it is. -/
def base_view (s : view_storage_type α) (env : Nat → List α) : List α :=
  match s with
  | view_storage_type.ref loc => env loc
  | view_storage_type.value v => v

/-- C8. A view built from a named lvalue stores a non-owning reference and
observes later in-place mutation of the caller-held range, while a view
built from a transient value owns a moved-in copy and aliases nothing
external; both modes answer through the same `base_view` accessor. -/
theorem view_storage_semantics (env : Nat → List α) (l : Nat) (r2 : List α) :
    base_view (block_iterable_view_base_data true l env) (Function.update env l r2) = r2 ∧
      base_view (block_iterable_view_base_data false l env) (Function.update env l r2)
        = env l ∧
      base_view (block_iterable_view_base_data true l env) env = env l ∧
      base_view (block_iterable_view_base_data false l env) env = env l := by
  refine ⟨?_, rfl, rfl, rfl⟩
  simp [block_iterable_view_base_data, base_view, Function.update_same]

/-- Modelled from the spec: `parlay::to_sequence` (the parallel bulk
iterator-range copy construction of `parlay::sequence`, defined in
sequence.h, which is not under src/) allocates `size(r)` slots and
constructs slot `j` from element `j` of `r`, in source order. -/
def parlay_to_sequence (r : List α) : List α :=
  List.ofFn (fun j : Fin r.length => r.get j)

/-- The overload of `to_sequence` for random-access input delegates to
`parlay::to_sequence`. -/
def to_sequence_ra (r : List α) : List α :=
  parlay_to_sequence r

/-- C9. Materialization is idempotent: materializing an already-materialized
container yields an equal container, with the same size and the same
contents in the same order. -/
theorem to_sequence_idempotent (c : List α) : to_sequence_ra c = c :=
  List.ofFn_get c

/-- A non-random-access block-iterable range: it reports its size, its block
count via `get_num_blocks()`, and block `i` as the list of elements of the
iterator range from `get_begin_block(i)` to `get_end_block(i)`. -/
structure BlockIterableView (α : Type) where
  size : Nat
  get_num_blocks : Nat
  block : Nat → List α

/-- The logical elements of a block-iterable view: the union of its blocks,
in order. -/
def BlockIterableView.elems (v : BlockIterableView α) : List α :=
  (List.range v.get_num_blocks).flatMap v.block

/-- The Block Partition Protocol contract for a custom block-iterable view:
the blocks enumerated in order reproduce every logical element exactly once
(so the reported size counts them all), every block other than the final one
is a full block of `block_size` elements (a block is a maximal contiguous
sub-range of at most `block_size` elements), and the block count obeys the
`num_blocks` invariant. -/
structure ProtocolContract (v : BlockIterableView α) : Prop where
  size_eq : v.size = v.elems.length
  full_blocks : ∀ i, i + 1 < v.get_num_blocks → (v.block i).length = block_size
  count_eq : v.get_num_blocks = num_blocks_from_size v.size

/-- One block-copy task of `to_sequence`: `std::uninitialized_copy` of the
elements of a block into the output buffer at the given offset.  Slots the
task does not own are left as they were; `none` is an uninitialized slot. -/
def writeBlock (out : Nat → Option α) (off : Nat) (blk : List α) : Nat → Option α :=
  fun j => if off ≤ j ∧ j - off < blk.length then blk[j - off]? else out j

/-- The overload of `to_sequence` for non-random-access block-iterable input: the state of
the output buffer after the `parallel_for` over all blocks, starting from
`size(v)` uninitialized slots, with the task for block `i` writing at the
`size_t` offset `i * block_size`.  Slot `j` of the buffer is the value of
output element `j`. -/
def to_sequence_bi (v : BlockIterableView α) : Nat → Option α :=
  (List.range v.get_num_blocks).foldl
    (fun out i => writeBlock out ((i * block_size) % wordSize) (v.block i))
    (fun _ => none)

/-- The half-open interval of output slots written by the block-copy task
for block `i`. -/
def task_interval (v : BlockIterableView α) (i : Nat) : Finset Nat :=
  Finset.Ico (i * block_size) (i * block_size + (v.block i).length)

theorem length_flatMap_full (v : BlockIterableView α) (hc : ProtocolContract v)
    (k : Nat) : k < v.get_num_blocks →
    ((List.range k).flatMap v.block).length = k * block_size := by
  induction k with
  | zero => intro _; simp
  | succ k ih =>
    intro hk
    rw [List.range_succ, List.flatMap_append, List.length_append, ih (by omega)]
    simp only [List.flatMap_cons, List.flatMap_nil, List.append_nil]
    rw [hc.full_blocks k (by omega)]
    ring

theorem mul_block_lt_size (v : BlockIterableView α) (hc : ProtocolContract v)
    (k : Nat) (hk : k < v.get_num_blocks) : k * block_size < v.size := by
  have hcnt := hc.count_eq
  simp only [num_blocks_from_size] at hcnt
  simp only [block_size] at *
  split at hcnt <;> omega

theorem length_block_eq (v : BlockIterableView α) (hc : ProtocolContract v)
    (i : Nat) (hi : i < v.get_num_blocks) :
    (v.block i).length = min block_size (v.size - i * block_size) := by
  by_cases h : i + 1 < v.get_num_blocks
  · rw [hc.full_blocks i h]
    have hcnt := hc.count_eq
    simp only [num_blocks_from_size] at hcnt
    simp only [block_size] at *
    split at hcnt <;> omega
  · have hnb : v.get_num_blocks = i + 1 := by omega
    have hsz : v.size = i * block_size + (v.block i).length := by
      rw [hc.size_eq, BlockIterableView.elems, hnb, List.range_succ, List.flatMap_append,
        List.length_append, length_flatMap_full v hc i (by omega)]
      simp
    have hub := le_num_blocks_mul v.size
    rw [← hc.count_eq, hnb] at hub
    simp only [block_size] at *
    omega

theorem task_interval_eq (v : BlockIterableView α) (hc : ProtocolContract v)
    (i : Nat) (hi : i < v.get_num_blocks) :
    task_interval v i
      = Finset.Ico (i * block_size) (min ((i + 1) * block_size) v.size) := by
  rw [task_interval, length_block_eq v hc i hi]
  congr 1
  have hlt := mul_block_lt_size v hc i hi
  simp only [block_size] at *
  omega

theorem biUnion_Ico_range (n : Nat) (k : Nat) :
    (Finset.range k).biUnion
        (fun i => Finset.Ico (i * block_size) (min ((i + 1) * block_size) n))
      = Finset.range (min (k * block_size) n) := by
  induction k with
  | zero => simp
  | succ k ih =>
    rw [Finset.range_succ, Finset.biUnion_insert, ih]
    ext s
    simp only [Finset.mem_union, Finset.mem_Ico, Finset.mem_range, block_size]
    omega

/-- C2. Under the Block Partition Protocol contract, the block-copy tasks
issued by `to_sequence` initialize every output slot exactly once: the
output intervals of the tasks are pairwise disjoint, and their union is
exactly the set of slots of the output buffer — no slot written twice, no
slot left uninitialized. -/
theorem tasks_disjoint_exhaustive (v : BlockIterableView α) (hc : ProtocolContract v) :
    (∀ i, i < v.get_num_blocks → ∀ j, j < v.get_num_blocks → i ≠ j →
        Disjoint (task_interval v i) (task_interval v j)) ∧
      (Finset.range v.get_num_blocks).biUnion (task_interval v)
        = Finset.range v.size := by
  constructor
  · intro i hi j hj hne
    rw [Finset.disjoint_left]
    intro s hsi hsj
    rw [task_interval_eq v hc i hi, Finset.mem_Ico] at hsi
    rw [task_interval_eq v hc j hj, Finset.mem_Ico] at hsj
    simp only [block_size] at hsi hsj
    omega
  · rw [Finset.biUnion_congr rfl
        (fun i hi => task_interval_eq v hc i (Finset.mem_range.mp hi)),
      biUnion_Ico_range]
    have h1 := le_num_blocks_mul v.size
    rw [← hc.count_eq] at h1
    congr 1
    simp only [block_size] at *
    omega

theorem foldl_writeBlock_eq (v : BlockIterableView α) (hc : ProtocolContract v)
    (hw : v.size < wordSize) (k : Nat) : k ≤ v.get_num_blocks →
    ∀ j, ((List.range k).foldl
        (fun out i => writeBlock out ((i * block_size) % wordSize) (v.block i))
        (fun _ => none)) j
      = ((List.range k).flatMap v.block)[j]? := by
  induction k with
  | zero => intro _ j; simp
  | succ k ih =>
    intro hk j
    rw [List.range_succ, List.foldl_append, List.flatMap_append]
    simp only [List.foldl_cons, List.foldl_nil, List.flatMap_cons, List.flatMap_nil,
      List.append_nil]
    have hklt : k * block_size < v.size := mul_block_lt_size v hc k (by omega)
    have hmod : (k * block_size) % wordSize = k * block_size :=
      Nat.mod_eq_of_lt (by omega)
    have hlen : ((List.range k).flatMap v.block).length = k * block_size :=
      length_flatMap_full v hc k (by omega)
    rw [hmod]
    simp only [writeBlock]
    by_cases hcase : k * block_size ≤ j ∧ j - k * block_size < (v.block k).length
    · rw [if_pos hcase, List.getElem?_append_right (by omega), hlen]
    · rw [if_neg hcase, ih (by omega) j]
      rcases Nat.lt_or_ge j (k * block_size) with hlt | hge
      · rw [List.getElem?_append_left (by omega)]
      · rw [List.getElem?_append_right (by omega), hlen,
          List.getElem?_eq_none (by omega), List.getElem?_eq_none (by omega)]

/-- Every element of `parlay::to_sequence` of a random-access range is the
corresponding element of the range; shared by the materialization claims. -/
theorem to_sequence_ra_eq (r : List α) : to_sequence_ra r = r :=
  List.ofFn_get r

/-- C1. `to_sequence` preserves order and count: output slot `j` holds the
materialized value of logical element `j` of the view, the output holds no
slot beyond the size of the view, and the random-access overload preserves
the length and every element of its input. -/
theorem to_sequence_preserves_order_count (v : BlockIterableView α)
    (hc : ProtocolContract v) (hw : v.size < wordSize) (r : List α) :
    (∀ j, j < v.size → to_sequence_bi v j = v.elems[j]?) ∧
      (∀ j, v.size ≤ j → to_sequence_bi v j = none) ∧
      (to_sequence_ra r).length = r.length ∧
      (∀ j, j < r.length → (to_sequence_ra r)[j]? = r[j]?) := by
  have hall : ∀ j, to_sequence_bi v j = v.elems[j]? :=
    foldl_writeBlock_eq v hc hw v.get_num_blocks le_rfl
  refine ⟨fun j _ => hall j, fun j hj => ?_, by rw [to_sequence_ra_eq],
    fun j _ => by rw [to_sequence_ra_eq]⟩
  rw [hall j]
  exact List.getElem?_eq_none (by rw [← hc.size_eq]; omega)

/-- C7. For a view of size zero: the block count is zero, `to_sequence`
returns an empty output with every slot untouched, the `parallel_for`
iterates over an empty index list so its body runs for no index, and the
random-access block count of the empty range is likewise zero. -/
theorem empty_range_zero_tasks (v : BlockIterableView α)
    (hc : ProtocolContract v) (h0 : v.size = 0) :
    v.get_num_blocks = 0 ∧ (∀ j, to_sequence_bi v j = none) ∧
      List.range v.get_num_blocks = [] ∧ num_blocks ([] : List α) = 0 := by
  have hnb : v.get_num_blocks = 0 := by rw [hc.count_eq, h0]; rfl
  refine ⟨hnb, fun j => ?_, by rw [hnb]; rfl, rfl⟩
  rw [to_sequence_bi, hnb]
  rfl

/-- A concrete block-iterable view for the witnesses: one block of three
elements. -/
def exampleView : BlockIterableView Nat :=
  ⟨3, 1, fun i => if i = 0 then [7, 8, 9] else []⟩

theorem exampleView_contract : ProtocolContract exampleView := by
  refine ⟨by decide, ?_, by decide⟩
  intro i h
  simp only [exampleView] at h
  omega

/-- A concrete empty block-iterable view for the witnesses. -/
def emptyView : BlockIterableView Nat :=
  ⟨0, 0, fun _ => []⟩

theorem emptyView_contract : ProtocolContract emptyView := by
  refine ⟨by decide, ?_, by decide⟩
  intro i h
  simp only [emptyView] at h
  omega

/-- Witness for `to_sequence_preserves_order_count` at the concrete view
`exampleView` and the concrete range `[1, 2]`. -/
theorem to_sequence_preserves_order_count_witness :
    to_sequence_bi exampleView 1 = (BlockIterableView.elems exampleView)[1]? :=
  (to_sequence_preserves_order_count exampleView exampleView_contract
    (by decide) [1, 2]).1 1 (by decide)

/-- Witness for `tasks_disjoint_exhaustive` at the concrete view
`exampleView`. -/
theorem tasks_disjoint_exhaustive_witness :
    (Finset.range exampleView.get_num_blocks).biUnion (task_interval exampleView)
      = Finset.range exampleView.size :=
  (tasks_disjoint_exhaustive exampleView exampleView_contract).2

/-- Witness for `empty_range_zero_tasks` at the concrete view `emptyView`. -/
theorem empty_range_zero_tasks_witness :
    emptyView.get_num_blocks = 0 ∧ to_sequence_bi emptyView 5 = none :=
  ⟨(empty_range_zero_tasks emptyView emptyView_contract rfl).1,
    (empty_range_zero_tasks emptyView emptyView_contract rfl).2.1 5⟩

end Parlay
